import Mathlib

/-!
Verification development for the cstore store-selection and catalog-reconciliation
subsystem (store.go and the harbor shipment-environment adapter harbor_store.go).

Modelling conventions:
* Go maps are modelled as association lists; `lookupKV` is map access and
  `mapInsert` is map assignment (Go map iteration order is unspecified, so any
  fixed iteration order is a valid determinization).
* The remote HTTP backend (createKey / updateKey / deleteKey / getHarborKeys)
  is modelled by a `Backend` oracle giving each call's outcome, and the remote
  calls a run performs are recorded in a trace of `RemoteOp` events.
* `gotenv.Parse` is external to the repository; `Push` takes the parsed local
  key/value list as the `parsed` argument.
* Go's time formatting/parsing (time.Time.String and time.Parse, also external
  to the repository) is modelled concretely by `goTimeString` / `parseModified`
  below, following the spec's description of the fixed timestamp layout.
-/

namespace CStore

/-! ### Association-list maps -/

/-- Go map read: first binding for `key`, if any. -/
def lookupKV {α : Type} : List (String × α) → String → Option α
  | [], _ => none
  | (k, v) :: rest, key => if k = key then some v else lookupKV rest key

/-- Go map write `m[k] = v`: the new binding replaces any previous binding of `k`. -/
def mapInsert (m : List (String × String)) (k v : String) : List (String × String) :=
  (k, v) :: m.filter (fun p => p.1 != k)

/-! ### Constants from harbor_store.go -/

def shipmentToken : String := "HARBOR_SHIPMENT"

def containerToken : String := "HARBOR_CONTAINER"

def envToken : String := "HARBOR_ENV"

def modifiedToken : String := "CSTORE_MODIFIED"

/-- The fixed timestamp layout `Pull` parses the sentinel with
(the reference layout of Go's `Time.String`). -/
def modifiedLayout : String := "2006-01-02 15:04:05.999999999 -0700 MST"

def envTypeBasic : String := "basic"

def envTypeDiscover : String := "discover"

def envTypeHidden : String := "hidden"

/-- Modelled from the spec: the generic "plain env var" classification marker
(`envVarType`, defined outside the provided sources; the spec calls it the
generic plain-env-var marker that recorded classifications are compared
against). Its exact text is never relied upon below. -/
def envVarType : String := "env_var"

/-- Modelled from the spec: `addEnvVarPrefix` (defined outside the provided
sources) maps a local env-var key to its catalog entry key; the spec's concrete
scenario names the entry for key `FOO` as `ENV_FOO`. -/
def addEnvVarPrefix (key : String) : String := "ENV_" ++ key

/-! ### Go time model (spec-modelled: the `time` package is outside the repository) -/

/-- A wall-clock UTC timestamp broken into the fields the fixed layout renders. -/
structure GoTime where
  year : Nat
  month : Nat
  day : Nat
  hour : Nat
  minute : Nat
  second : Nat
  nanos : Nat
deriving DecidableEq

/-- The field bounds under which each field fits its column in the layout. -/
def GoTime.wf (t : GoTime) : Prop :=
  t.year < 10000 ∧ t.month < 100 ∧ t.day < 100 ∧ t.hour < 100 ∧
    t.minute < 100 ∧ t.second < 100 ∧ t.nanos < 1000000000

instance (t : GoTime) : Decidable t.wf := by
  unfold GoTime.wf; infer_instance

/-- Go's zero `time.Time` (`Attributes{}` default). -/
def timeZero : GoTime := ⟨1, 1, 1, 0, 0, 0, 0⟩

/-- The decimal digit character of `n % 10`. -/
def digitChar (n : Nat) : Char := Char.ofNat (48 + n % 10)

/-- `n` rendered as exactly `w` decimal digits, zero padded (most significant first). -/
def padChars : Nat → Nat → List Char
  | 0, _ => []
  | w + 1, n => padChars w (n / 10) ++ [digitChar n]

/-- Drop trailing `'0'` characters. -/
def trimZeros (cs : List Char) : List Char :=
  (cs.reverse.dropWhile (fun c => c == '0')).reverse

/-- The fractional-seconds part of the rendering: Go's `.999999999` layout
omits the dot when the fraction is zero and trims trailing zeros otherwise. -/
def fracChars (nanos : Nat) : List Char :=
  if nanos = 0 then [] else '.' :: trimZeros (padChars 9 nanos)

/-- Modelled from the spec: Go's `time.Time.String` rendering of a UTC time
("2006-01-02 15:04:05.999999999 -0700 MST" reference layout; for a UTC time the
zone renders as `+0000 UTC`, and `UTC()` strips the monotonic reading so no
`m=` suffix appears). This is the sentinel value `Push` injects. -/
def goTimeChars (t : GoTime) : List Char :=
  padChars 4 t.year ++
    ('-' :: (padChars 2 t.month ++
      ('-' :: (padChars 2 t.day ++
        (' ' :: (padChars 2 t.hour ++
          (':' :: (padChars 2 t.minute ++
            (':' :: (padChars 2 t.second ++
              (fracChars t.nanos ++ (' ' :: "+0000 UTC".data))))))))))))

def goTimeString (t : GoTime) : String := ⟨goTimeChars t⟩

/-- Read exactly `w` decimal digits, most significant first, onto `acc`. -/
def readDigits : Nat → Nat → List Char → Option (Nat × List Char)
  | 0, acc, cs => some (acc, cs)
  | _ + 1, _, [] => none
  | w + 1, acc, c :: cs =>
    if c.isDigit then readDigits w (acc * 10 + (c.toNat - 48)) cs else none

def expectChar (a : Char) : List Char → Option (List Char)
  | c :: cs => if c = a then some cs else none
  | [] => none

def expectChars : List Char → List Char → Option (List Char)
  | [], cs => some cs
  | _ :: _, [] => none
  | a :: as, c :: cs => if c = a then expectChars as cs else none

/-- The numeric value of a digit string, most significant first. -/
def digitsVal (cs : List Char) : Nat :=
  cs.foldl (fun a c => a * 10 + (c.toNat - 48)) 0

/-- The optional fractional-seconds field of the `.999999999` layout element:
consumed only when a dot is present, up to nine digits, scaled to nanoseconds. -/
def readFrac : List Char → Option (Nat × List Char)
  | c :: cs =>
    if c = '.' then
      let ds := cs.takeWhile (fun d => d.isDigit)
      if ds.length = 0 ∨ 9 < ds.length then none
      else some (digitsVal ds * 10 ^ (9 - ds.length), cs.drop ds.length)
    else some (0, c :: cs)
  | [] => some (0, [])

/-- Modelled from the spec: Go's `time.Parse` applied to `modifiedLayout`,
specialized to values rendered for UTC (numeric zone `+0000`, zone name `UTC`),
which is the form every sentinel written by `Push` takes. -/
def parseModifiedChars (cs : List Char) : Option GoTime :=
  (readDigits 4 0 cs).bind fun yc =>
  (expectChar '-' yc.2).bind fun cs1 =>
  (readDigits 2 0 cs1).bind fun moc =>
  (expectChar '-' moc.2).bind fun cs2 =>
  (readDigits 2 0 cs2).bind fun dc =>
  (expectChar ' ' dc.2).bind fun cs3 =>
  (readDigits 2 0 cs3).bind fun hc =>
  (expectChar ':' hc.2).bind fun cs4 =>
  (readDigits 2 0 cs4).bind fun mic =>
  (expectChar ':' mic.2).bind fun cs5 =>
  (readDigits 2 0 cs5).bind fun sc =>
  (readFrac sc.2).bind fun fc =>
  (expectChars " +0000 UTC".data fc.2).bind fun rest =>
  if rest.isEmpty then some ⟨yc.1, moc.1, dc.1, hc.1, mic.1, sc.1, fc.1⟩ else none

def parseModified (s : String) : Option GoTime := parseModifiedChars s.data

/-! ### Data model (catalog.File and the harbor adapter's session state) -/

/-- catalog.File restricted to the fields this subsystem reads
(`Type` is `ftype` here: `Type` is reserved in Lean). -/
structure File where
  Path : String
  Store : String
  ftype : String
  IsEnv : Bool
  Data : List (String × String)
deriving DecidableEq

structure HarborAuth where
  User : String
  Token : String
deriving DecidableEq

structure HarborShipment where
  Name : String
  Container : String
  Env : String
deriving DecidableEq

structure HarborStore where
  Auth : HarborAuth
  Shipment : HarborShipment
deriving DecidableEq

/-- The JSON body of a remote env-var upsert (`Typ` is Go's `Type` field). -/
structure pair where
  Name : String
  Value : String
  Typ : String
deriving DecidableEq

/-- One remote env var as returned by getHarborKeys. -/
structure harborKey where
  value : String
  vType : String
deriving DecidableEq

/-- One remote HTTP mutation attempted by the adapter. -/
inductive RemoteOp where
  | create (p : pair)
  | update (p : pair)
  | delete (key : String)
deriving DecidableEq

/-- The remote key a `RemoteOp` addresses. -/
def opKey : RemoteOp → String
  | RemoteOp.create p => p.Name
  | RemoteOp.update p => p.Name
  | RemoteOp.delete k => k

/-- Oracle for the remote backend: the outcome of each HTTP call
(`none` = success status, `some e` = the error the adapter surfaces). -/
structure Backend where
  createRes : pair → Option String
  updateRes : pair → Option String
  deleteRes : String → Option String
  listRes : Except String (List (String × harborKey))

/-- The keys `RemoteOp.delete` operations in a trace address, in order. -/
def deletesOf (tr : List RemoteOp) : List String :=
  tr.filterMap (fun op => match op with | RemoteOp.delete k => some k | _ => none)

/-! ### harbor_store.go: Push -/

/-- The classification chosen for local key `key` (harbor_store.go lines 167-172):
default `hidden`, overridden by a recorded classification in the old `file.Data`
when that classification differs from the generic marker. -/
def keyTypeFor (fileData : List (String × String)) (key : String) : String :=
  match lookupKV fileData ( addEnvVarPrefix key) with
  | some storedKeyType => if storedKeyType ≠ envVarType then storedKeyType else envTypeHidden
  | none => envTypeHidden

/-- The metadata map `Push` starts from (harbor_store.go lines 152-156). -/
def initialData (s : HarborStore) : List (String × String) :=
  [(shipmentToken, s.Shipment.Name), (containerToken, s.Shipment.Container),
   (envToken, s.Shipment.Env)]

/-- The local key set `Push` reconciles against: the parsed file contents with
the synthetic last-modified sentinel injected (harbor_store.go lines 158-159). -/
def localKeysOf (parsed : List (String × String)) (now : GoTime) : List (String × String) :=
  mapInsert parsed modifiedToken (goTimeString now)

structure UpsertOut where
  data : List (String × String)
  tr : List RemoteOp
  err : Option String
deriving DecidableEq

/-- The per-key upsert pass (harbor_store.go lines 163-187): for each local key,
attempt create, fall back to update, abort on double failure; on success record
the prefixed classification into the metadata map. -/
def pushUpsert (b : Backend) (fileData : List (String × String)) :
    List (String × String) → List (String × String) → List RemoteOp → UpsertOut
  | [], data, tr => ⟨data, tr, none⟩
  | (key, value) :: rest, data, tr =>
    match b.createRes ⟨key, value, keyTypeFor fileData key⟩ with
    | none =>
      pushUpsert b fileData rest
        (mapInsert data ( addEnvVarPrefix key) (keyTypeFor fileData key))
        (tr ++ [RemoteOp.create ⟨key, value, keyTypeFor fileData key⟩])
    | some _ =>
      match b.updateRes ⟨key, value, keyTypeFor fileData key⟩ with
      | none =>
        pushUpsert b fileData rest
          (mapInsert data ( addEnvVarPrefix key) (keyTypeFor fileData key))
          (tr ++ [RemoteOp.create ⟨key, value, keyTypeFor fileData key⟩,
                  RemoteOp.update ⟨key, value, keyTypeFor fileData key⟩])
      | some e =>
        ⟨data,
         tr ++ [RemoteOp.create ⟨key, value, keyTypeFor fileData key⟩,
                RemoteOp.update ⟨key, value, keyTypeFor fileData key⟩],
         some e⟩

structure OpsOut where
  tr : List RemoteOp
  err : Option String
deriving DecidableEq

/-- The deletion pass (harbor_store.go lines 194-205): delete every remote key
the old `file.Data` holds a prefixed entry for that is no longer local. -/
def pushDeletePass (b : Backend) (fileData localKeys : List (String × String)) :
    List (String × harborKey) → List RemoteOp → OpsOut
  | [], tr => ⟨tr, none⟩
  | (key, _) :: rest, tr =>
    if (lookupKV fileData ( addEnvVarPrefix key)).isSome then
      if (lookupKV localKeys key).isNone then
        match b.deleteRes key with
        | none => pushDeletePass b fileData localKeys rest (tr ++ [RemoteOp.delete key])
        | some e => ⟨tr ++ [RemoteOp.delete key], some e⟩
      else pushDeletePass b fileData localKeys rest tr
    else pushDeletePass b fileData localKeys rest tr

structure PushResult where
  data : List (String × String)
  versioning : Bool
  err : Option String
  tr : List RemoteOp
deriving DecidableEq

/-- harbor_store.go `Push` (lines 150-208): upsert pass, then remote listing,
then deletion pass; any failure returns immediately with the metadata built so far. -/
def Push (b : Backend) (s : HarborStore) (file : File)
    (parsed : List (String × String)) (now : GoTime) : PushResult :=
  match pushUpsert b file.Data (localKeysOf parsed now) (initialData s) [] with
  | ⟨data, tr, some e⟩ => ⟨data, false, some e, tr⟩
  | ⟨data, tr, none⟩ =>
    match b.listRes with
    | Except.error e => ⟨data, false, some e, tr⟩
    | Except.ok hkeys =>
      match pushDeletePass b file.Data (localKeysOf parsed now) hkeys tr with
      | ⟨tr2, err2⟩ => ⟨data, false, err2, tr2⟩

/-! ### harbor_store.go: Pull -/

structure Attributes where
  LastModified : GoTime
deriving DecidableEq

/-- The emitted file body (harbor_store.go lines 220-228): one `key=value` line
per remote key whose prefixed entry the catalog holds, sentinel skipped. -/
def pullBody (fileData : List (String × String)) : List (String × harborKey) → String
  | [] => ""
  | (key, hk) :: rest =>
    if key = modifiedToken then pullBody fileData rest
    else if (lookupKV fileData ( addEnvVarPrefix key)).isSome then
      key ++ "=" ++ hk.value ++ "\n" ++ pullBody fileData rest
    else pullBody fileData rest

/-- The attributes (harbor_store.go lines 230-239): `LastModified` from the
parsed sentinel when present and parseable, else the current time. -/
def pullAttr (keys : List (String × harborKey)) (now : GoTime) : Attributes :=
  match lookupKV keys modifiedToken with
  | some m =>
    match parseModified m.value with
    | some t => ⟨t⟩
    | none => ⟨now⟩
  | none => ⟨now⟩

/-- harbor_store.go `Pull` (lines 211-242). -/
def Pull (b : Backend) (file : File) (now : GoTime) : String × Attributes × Option String :=
  match b.listRes with
  | Except.error e => ("", ⟨timeZero⟩, some e)
  | Except.ok keys => (pullBody file.Data keys, pullAttr keys now, none)

/-! ### harbor_store.go: Purge -/

/-- harbor_store.go `isEnvVarType` (lines 270-281). -/
def isEnvVarType (t : String) : Bool :=
  if t = envTypeBasic then true
  else if t = envTypeDiscover then true
  else if t = envTypeHidden then true
  else false

def purgeLoop (b : Backend) : List (String × String) → List RemoteOp → OpsOut
  | [], tr => ⟨tr, none⟩
  | (key, value) :: rest, tr =>
    if isEnvVarType value then
      match b.deleteRes key with
      | none => purgeLoop b rest (tr ++ [RemoteOp.delete key])
      | some e => ⟨tr ++ [RemoteOp.delete key], some e⟩
    else purgeLoop b rest tr

/-- harbor_store.go `Purge` (lines 245-258): for every `file.Data` entry whose
value is a recognized classification, issue a remote deletion of that entry's
key, failing fast on the first error. -/
def Purge (b : Backend) (file : File) : OpsOut :=
  purgeLoop b file.Data []

/-! ### harbor_store.go: Pre -/

/-- Oracle for `Pre`'s collaborators: the vault, the prompt, and the auth client. -/
structure PreEnv where
  authClientErr : Option String
  cvUser : Option String
  cvToken : Option String
  isAuthenticated : String → String → Bool
  promptedUser : String
  promptedPass : String
  loginToken : String
  loginSuccess : Bool
  loginErr : Option String
  setUserErr : Option String
  setTokenErr : Option String
  promptShipment : String
  promptContainer : String
  promptEnv : String

structure PreResult where
  auth : HarborAuth
  shipment : HarborShipment
  err : Option String
deriving DecidableEq

/-- The authentication phase of `Pre` (harbor_store.go lines 90-126).
`Except.error v` is an early `return v` from `Pre` — note the code's
`if err != nil || !success { return err }` returns `err` even when `err` is
nil and only `success` is false. -/
def preAuthPhase (e : PreEnv) : Except (Option String) HarborAuth :=
  let user0 := e.cvUser.getD ""
  let token0 := e.cvToken.getD ""
  let isAuth :=
    if 0 < token0.length ∧ 0 < user0.length then e.isAuthenticated user0 token0 else false
  if isAuth then Except.ok ⟨user0, token0⟩
  else
    if e.loginErr.isSome ∨ e.loginSuccess = false then Except.error e.loginErr
    else
      match e.setUserErr with
      | some er => Except.error (some er)
      | none =>
        match e.setTokenErr with
        | some er => Except.error (some er)
        | none => Except.ok ⟨e.promptedUser, e.loginToken⟩

/-- harbor_store.go `Pre` (lines 80-147): authenticate, then resolve the
shipment coordinates from `file.Data` or the prompt. -/
def PreRun (e : PreEnv) (file : File) : PreResult :=
  match e.authClientErr with
  | some er => ⟨⟨"", ""⟩, ⟨"", "", ""⟩, some er⟩
  | none =>
    match preAuthPhase e with
    | Except.error v => ⟨⟨"", ""⟩, ⟨"", "", ""⟩, v⟩
    | Except.ok auth =>
      ⟨auth,
       ⟨(lookupKV file.Data shipmentToken).getD e.promptShipment,
        (lookupKV file.Data containerToken).getD e.promptContainer,
        (lookupKV file.Data envToken).getD e.promptEnv⟩,
       none⟩

/-! ### store.go: the registry and Select -/

/-- A registered adapter as `Select` sees it: its name, its file-type filter,
and the outcome of its `Pre` call. -/
structure IStoreM where
  name : String
  supportsFileType : String → Bool
  preErr : Option String

inductive StoreErr where
  | notFound
  | pre (e : String)
deriving DecidableEq

/-- The observable collaborator calls `Select` makes. -/
inductive SelectEvent where
  | preCall (store : String)
  | promptUser (supported : String) (defaultValue : String)
deriving DecidableEq

structure SelectResult where
  store : Option IStoreM
  err : Option StoreErr
  events : List SelectEvent
  fileAfter : File

/-- Registry lookup (the Go `stores` map keyed by adapter name). -/
def findStore (stores : List IStoreM) (n : String) : Option IStoreM :=
  stores.find? (fun st => st.name == n)

/-- The comma-joined supported-store names string built by store.go lines 44-53. -/
def supportedStoresStr (stores : List IStoreM) (t : String) : String :=
  stores.foldl
    (fun acc st =>
      if st.supportsFileType t then
        if acc.length = 0 then st.name else acc ++ "," ++ st.name
      else acc)
    ""

/-- Comma join of a name list, for characterizing `supportedStoresStr`. -/
def joinComma : List String → String
  | [] => ""
  | x :: xs => xs.foldl (fun acc n => acc ++ "," ++ n) x

/-- store.go `Select` (lines 34-65): a set `file.Store` is looked up by exact
name (unknown name is `ErrStoreNotFound`, with no collaborator calls at all);
otherwise the supported adapters are presented via the prompt with a default
suggestion and the user's choice is looked up. The code never writes to
`file.Store`: `fileAfter` is always the input file. -/
def selectM (stores : List IStoreM) (choice dflt : String) (file : File) : SelectResult :=
  if 0 < file.Store.length then
    match findStore stores file.Store with
    | some st => ⟨some st, st.preErr.map StoreErr.pre, [SelectEvent.preCall st.name], file⟩
    | none => ⟨none, some StoreErr.notFound, [], file⟩
  else
    match findStore stores choice with
    | some st =>
      ⟨some st, st.preErr.map StoreErr.pre,
       [SelectEvent.promptUser (supportedStoresStr stores file.ftype) dflt,
        SelectEvent.preCall st.name], file⟩
    | none =>
      ⟨none, some StoreErr.notFound,
       [SelectEvent.promptUser (supportedStoresStr stores file.ftype) dflt], file⟩

/-- Fold step recording one processed local key into the metadata map. -/
def upsertStep (fileData : List (String × String))
    (d : List (String × String)) (kv : String × String) : List (String × String) :=
  mapInsert d ( addEnvVarPrefix kv.1) (keyTypeFor fileData kv.1)

/-- Line-concatenation helper for characterizing `pullBody`. -/
def concatAll : List String → String
  | [] => ""
  | s :: rest => s ++ concatAll rest

/-! ### Concrete fixtures used by witnesses and concrete scenarios -/

/-- A backend on which every remote call succeeds and listing returns `hkeys`. -/
def bAllOK (hkeys : List (String × harborKey)) : Backend :=
  ⟨fun _ => none, fun _ => none, fun _ => none, Except.ok hkeys⟩

def tW : GoTime := ⟨2024, 1, 1, 0, 0, 0, 0⟩

def tOther : GoTime := ⟨2025, 6, 7, 8, 9, 10, 11⟩

def sW : HarborStore := ⟨⟨"user", "token"⟩, ⟨"ship", "cont", "dev"⟩⟩

/-- Reconciliation-completeness scenario: local `{a, b}`, previously owned `{a, b, c}`. -/
def parsedC1 : List (String × String) := [("a", "1"), ("b", "2")]

def fC1 : File :=
  ⟨".env", "harbor", "env", true,
   [("ENV_a", "hidden"), ("ENV_b", "hidden"), ("ENV_c", "hidden")]⟩

def hkC1 : List (String × harborKey) :=
  [("a", ⟨"1", "hidden"⟩), ("b", ⟨"2", "hidden"⟩), ("c", ⟨"3", "hidden"⟩)]

/-- Fresh-key scenario: local `FOO=bar`, no prior `file.Data` entry. -/
def fC2 : File := ⟨".env", "harbor", "env", true, []⟩

/-- Classification-persistence scenario: `X` previously classified `discover`. -/
def fC2b : File := ⟨".env", "harbor", "env", true, [("ENV_X", "discover")]⟩

/-- A backend whose create and update both fail for key `a` only. -/
def bFailA : Backend :=
  ⟨fun p => if p.Name = "a" then some "create-failed" else none,
   fun p => if p.Name = "a" then some "update-failed" else none,
   fun _ => none, Except.ok []⟩

/-- The registered harbor-like adapter used in Select scenarios. -/
def stH : IStoreM := ⟨"harbor", fun t => t == "env", none⟩

def fBound : File := ⟨".env", "harbor", "env", true, []⟩

def fUnknown : File := ⟨".env", "unknown", "env", true, []⟩

def fPrompt : File := ⟨".env", "", "env", true, []⟩

/-- Pull concrete scenario: remote `{X: "1"}` plus the sentinel, catalog claims only `X`. -/
def keysC9 : List (String × harborKey) :=
  [("X", ⟨"1", "hidden"⟩),
   (modifiedToken, ⟨"2024-01-01 00:00:00.000000000 +0000 UTC", "hidden"⟩)]

def fC9 : File := ⟨".env", "harbor", "env", true, [("ENV_X", "hidden")]⟩

/-- Pre collaborator outcomes where no credentials are cached and the login
backend rejects the credentials without a transport error
(`Login` returns success=false, err=nil). -/
def envLoginFail : PreEnv :=
  ⟨none, none, none, fun _ _ => false, "user", "pass", "", false, none, none, none,
   "ship", "cont", "dev"⟩

/-! ### Lemmas: association-list maps -/

theorem lookupKV_filter_ne {m : List (String × String)} {k k2 : String} (h : k2 ≠ k) :
    lookupKV (m.filter (fun p => p.1 != k)) k2 = lookupKV m k2 := by
  induction m with
  | nil => rfl
  | cons a rest ih =>
    by_cases ha : a.1 = k
    · have hkk2 : ¬ k = k2 := fun he => h he.symm
      have hne : ¬ a.1 = k2 := by rw [ha]; exact hkk2
      simp [List.filter_cons, ha, lookupKV, hne, hkk2, ih]
    · simp only [List.filter_cons]
      have : (a.1 != k) = true := by simpa [bne_iff_ne] using ha
      rw [this]
      simp only [lookupKV]
      by_cases he : a.1 = k2
      · obtain ⟨a1, a2⟩ := a
        simp_all [lookupKV]
      · obtain ⟨a1, a2⟩ := a
        simp_all [lookupKV]

theorem lookupKV_mapInsert_self (m : List (String × String)) (k v : String) :
    lookupKV (mapInsert m k v) k = some v := by
  simp [mapInsert, lookupKV]

theorem lookupKV_mapInsert_ne (m : List (String × String)) (k v k2 : String) (h : k2 ≠ k) :
    lookupKV (mapInsert m k v) k2 = lookupKV m k2 := by
  have hne : ¬ k = k2 := fun he => h he.symm
  simp only [mapInsert, lookupKV, hne, if_false]
  exact lookupKV_filter_ne h

theorem lookupKV_isSome_iff {α : Type} (l : List (String × α)) (k : String) :
    (lookupKV l k).isSome = true ↔ k ∈ l.map Prod.fst := by
  induction l with
  | nil => simp [lookupKV]
  | cons a rest ih =>
    by_cases he : a.1 = k
    · obtain ⟨a1, a2⟩ := a
      simp_all [lookupKV]
    · obtain ⟨a1, a2⟩ := a
      simp only at he
      simp [lookupKV, he, ih, Ne.symm he]

/-! ### Lemmas: digits and the time layout round trip -/

theorem digitChar_isDigit (n : Nat) : (digitChar n).isDigit = true := by
  have h : n % 10 < 10 := Nat.mod_lt _ (by decide)
  unfold digitChar
  set m := n % 10 with hm
  interval_cases m <;> decide

theorem digitChar_toNat (n : Nat) : (digitChar n).toNat = 48 + n % 10 := by
  have h : n % 10 < 10 := Nat.mod_lt _ (by decide)
  unfold digitChar
  set m := n % 10 with hm
  interval_cases m <;> decide

theorem padChars_length (w : Nat) : ∀ n, (padChars w n).length = w := by
  induction w with
  | zero => intro n; rfl
  | succ w ih => intro n; simp [padChars, ih]

theorem padChars_all_digits (w : Nat) : ∀ n c, c ∈ padChars w n → c.isDigit = true := by
  induction w with
  | zero => intro n c hc; simp [padChars] at hc
  | succ w ih =>
    intro n c hc
    simp only [padChars, List.mem_append, List.mem_singleton] at hc
    rcases hc with hc | hc
    · exact ih _ c hc
    · rw [hc]; exact digitChar_isDigit n

theorem readDigits_cons_digit (w acc : Nat) (c : Char) (cs : List Char)
    (h : c.isDigit = true) :
    readDigits (w + 1) acc (c :: cs) = readDigits w (acc * 10 + (c.toNat - 48)) cs := by
  simp [readDigits, h]

theorem readDigits_pad (w1 : Nat) :
    ∀ (w2 n acc : Nat) (rest : List Char), n < 10 ^ w1 →
      readDigits (w1 + w2) acc (padChars w1 n ++ rest) =
        readDigits w2 (acc * 10 ^ w1 + n) rest := by
  induction w1 with
  | zero =>
    intro w2 n acc rest h
    have hn : n = 0 := by simpa using Nat.lt_one_iff.mp (by simpa using h)
    subst hn
    simp [padChars]
  | succ w1 ih =>
    intro w2 n acc rest h
    have hdiv : n / 10 < 10 ^ w1 := by
      rw [pow_succ] at h
      omega
    have hshape : padChars (w1 + 1) n ++ rest =
        padChars w1 (n / 10) ++ (digitChar n :: rest) := by
      simp [padChars]
    rw [hshape]
    have harr : w1 + 1 + w2 = w1 + (w2 + 1) := by omega
    rw [harr, ih (w2 + 1) (n / 10) acc (digitChar n :: rest) hdiv]
    rw [readDigits_cons_digit w2 _ (digitChar n) rest (digitChar_isDigit n)]
    congr 1
    rw [digitChar_toNat]
    have : 48 + n % 10 - 48 = n % 10 := by omega
    rw [this, pow_succ, ← mul_assoc]
    have hmod : n / 10 * 10 + n % 10 = n := by omega
    calc (acc * 10 ^ w1 + n / 10) * 10 + n % 10
        = acc * 10 ^ w1 * 10 + (n / 10 * 10 + n % 10) := by ring
      _ = acc * 10 ^ w1 * 10 + n := by rw [hmod]

theorem readDigits_pad_exact (w n : Nat) (rest : List Char) (h : n < 10 ^ w) :
    readDigits w 0 (padChars w n ++ rest) = some (n, rest) := by
  have h0 := readDigits_pad w 0 n 0 rest h
  rw [Nat.add_zero] at h0
  rw [h0]
  simp [readDigits]

theorem digitsVal_foldl_pad (w : Nat) :
    ∀ n acc, n < 10 ^ w →
      List.foldl (fun a c => a * 10 + (c.toNat - 48)) acc (padChars w n) =
        acc * 10 ^ w + n := by
  induction w with
  | zero =>
    intro n acc h
    have hn : n = 0 := by simpa using Nat.lt_one_iff.mp (by simpa using h)
    subst hn
    simp [padChars]
  | succ w ih =>
    intro n acc h
    have hdiv : n / 10 < 10 ^ w := by
      rw [pow_succ] at h
      omega
    simp only [padChars, List.foldl_append, List.foldl_cons, List.foldl_nil]
    rw [ih (n / 10) acc hdiv, digitChar_toNat]
    have h48 : 48 + n % 10 - 48 = n % 10 := by omega
    rw [h48, pow_succ, ← mul_assoc]
    have hmod : n / 10 * 10 + n % 10 = n := by omega
    calc (acc * 10 ^ w + n / 10) * 10 + n % 10
        = acc * 10 ^ w * 10 + (n / 10 * 10 + n % 10) := by ring
      _ = acc * 10 ^ w * 10 + n := by rw [hmod]

theorem foldl_zeros (k : Nat) :
    ∀ acc, List.foldl (fun a c => a * 10 + (c.toNat - 48)) acc (List.replicate k '0') =
      acc * 10 ^ k := by
  induction k with
  | zero => intro acc; simp
  | succ k ih =>
    intro acc
    rw [List.replicate_succ, List.foldl_cons, ih]
    have h0 : ('0' : Char).toNat - 48 = 0 := by decide
    rw [h0, pow_succ]
    ring

theorem takeWhile_zeros (cs : List Char) :
    cs.takeWhile (fun c => c == '0') =
      List.replicate (cs.takeWhile (fun c => c == '0')).length '0' := by
  induction cs with
  | nil => rfl
  | cons c rest ih =>
    by_cases hc : c = '0'
    · subst hc
      simp only [List.takeWhile_cons]
      norm_num
      rw [List.replicate_succ]
      exact congrArg (List.cons '0') ih
    · have hb : (c == '0') = false := by simpa using hc
      simp [List.takeWhile_cons, hb]

theorem trimZeros_decomp (cs : List Char) :
    cs = trimZeros cs ++ List.replicate (cs.length - (trimZeros cs).length) '0' := by
  unfold trimZeros
  conv_lhs => rw [← List.reverse_reverse cs]
  conv_lhs =>
    rw [← List.takeWhile_append_dropWhile (p := fun c => c == '0') (l := cs.reverse)]
  rw [List.reverse_append]
  congr 1
  rw [takeWhile_zeros cs.reverse, List.reverse_replicate]
  congr 1
  have hlen : cs.length =
      (cs.reverse.takeWhile (fun c => c == '0')).length +
        (cs.reverse.dropWhile (fun c => c == '0')).length := by
    conv_lhs => rw [← List.length_reverse]
    conv_lhs =>
      rw [← List.takeWhile_append_dropWhile (p := fun c => c == '0') (l := cs.reverse)]
    rw [List.length_append]
  rw [List.length_reverse]
  omega

theorem trimZeros_all_digits {cs : List Char} (h : ∀ c ∈ cs, c.isDigit = true) :
    ∀ c ∈ trimZeros cs, c.isDigit = true := by
  intro c hc
  unfold trimZeros at hc
  rw [List.mem_reverse] at hc
  have hsub : c ∈ cs.reverse := (List.dropWhile_sublist _).subset hc
  exact h c (List.mem_reverse.mp hsub)

theorem takeWhile_append_stop {p : Char → Bool} {xs : List Char}
    (hx : ∀ c ∈ xs, p c = true) {y : Char} (hy : p y = false) (rest : List Char) :
    ((xs ++ y :: rest).takeWhile p = xs) ∧ ((xs ++ y :: rest).drop xs.length = y :: rest) := by
  constructor
  · induction xs with
    | nil => simp [List.takeWhile_cons, hy]
    | cons a as ih =>
      have ha : p a = true := hx a (List.mem_cons_self a as)
      have ih2 := ih (fun c hc => hx c (List.mem_cons_of_mem a hc))
      simp [List.takeWhile_cons, ha, ih2]
  · exact List.drop_left xs (y :: rest)

theorem readFrac_fracChars (f : Nat) (tail : List Char) (hf : f < 10 ^ 9) :
    readFrac (fracChars f ++ ' ' :: tail) = some (f, ' ' :: tail) := by
  by_cases h0 : f = 0
  · subst h0
    simp [fracChars, readFrac]
  · have hts := trimZeros_decomp (padChars 9 f)
    set ts := trimZeros (padChars 9 f) with hts_def
    have hlen9 : (padChars 9 f).length = 9 := padChars_length 9 f
    set k := (padChars 9 f).length - ts.length with hk_def
    have hlen : 9 = ts.length + k := by
      have := congrArg List.length hts
      simp only [List.length_append, List.length_replicate] at this
      omega
    have hdig : ∀ c ∈ ts, c.isDigit = true :=
      trimZeros_all_digits (padChars_all_digits 9 f)
    have hval : digitsVal ts * 10 ^ k = f := by
      have hv : digitsVal (padChars 9 f) = f := by
        have := digitsVal_foldl_pad 9 f 0 hf
        simpa [digitsVal] using this
      rw [hts] at hv
      unfold digitsVal at hv ⊢
      rw [List.foldl_append, foldl_zeros] at hv
      exact hv
    have hts_ne : ts ≠ [] := by
      intro he
      rw [he] at hval
      simp [digitsVal] at hval
      exact h0 hval.symm
    have hfr : fracChars f = '.' :: ts := by
      simp [fracChars, h0, hts_def]
    rw [hfr]
    have hsp : (' ' : Char).isDigit = false := by decide
    obtain ⟨htake, hdrop⟩ :=
      takeWhile_append_stop (p := fun d => d.isDigit) hdig hsp tail
    simp only [List.cons_append, readFrac, if_pos rfl]
    rw [htake, hdrop]
    have hlen_ne : ¬ (ts.length = 0 ∨ 9 < ts.length) := by
      rcases List.length_pos_iff_ne_nil.mpr hts_ne with hp
      omega
    rw [if_neg hlen_ne]
    have hk9 : 9 - ts.length = k := by omega
    rw [hk9, hval]
    simp

theorem expectChar_self (a : Char) (cs : List Char) :
    expectChar a (a :: cs) = some cs := by
  simp [expectChar]

theorem expectChars_self (xs : List Char) : ∀ rest, expectChars xs (xs ++ rest) = some rest := by
  induction xs with
  | nil => intro rest; rfl
  | cons a as ih => intro rest; simp [expectChars, ih]

/-- Round trip: the sentinel value rendered by `Push` (Go `Time.String` on a UTC
time) parses back to the same timestamp under the fixed `modifiedLayout`. -/
theorem parseModified_goTimeString (t : GoTime) (h : t.wf) :
    parseModified (goTimeString t) = some t := by
  obtain ⟨hy, hmo, hd, hh, hmi, hs, hn⟩ := h
  show parseModifiedChars (goTimeChars t) = some t
  unfold goTimeChars parseModifiedChars
  rw [readDigits_pad_exact 4 t.year _ (by simpa using hy)]
  simp only [Option.some_bind]
  rw [expectChar_self]
  simp only [Option.some_bind]
  rw [readDigits_pad_exact 2 t.month _ (by simpa using hmo)]
  simp only [Option.some_bind]
  rw [expectChar_self]
  simp only [Option.some_bind]
  rw [readDigits_pad_exact 2 t.day _ (by simpa using hd)]
  simp only [Option.some_bind]
  rw [expectChar_self]
  simp only [Option.some_bind]
  rw [readDigits_pad_exact 2 t.hour _ (by simpa using hh)]
  simp only [Option.some_bind]
  rw [expectChar_self]
  simp only [Option.some_bind]
  rw [readDigits_pad_exact 2 t.minute _ (by simpa using hmi)]
  simp only [Option.some_bind]
  rw [expectChar_self]
  simp only [Option.some_bind]
  rw [readDigits_pad_exact 2 t.second _ (by simpa using hs)]
  simp only [Option.some_bind]
  rw [readFrac_fracChars t.nanos _ hn]
  simp only [Option.some_bind]
  have hexp : expectChars [' ', '+', '0', '0', '0', '0', ' ', 'U', 'T', 'C']
      [' ', '+', '0', '0', '0', '0', ' ', 'U', 'T', 'C'] = some [] := by decide
  rw [hexp]
  simp

/-! ### Lemmas: the env-var key prefixing -/

theorem addEnvVarPrefix_inj {a b : String} (h : ( addEnvVarPrefix a) = addEnvVarPrefix b) :
    a = b := by
  unfold addEnvVarPrefix at h
  have h2 : "ENV_".data ++ a.data = "ENV_".data ++ b.data := by
    have h3 := congrArg String.data h
    simpa [String.data_append] using h3
  have h4 : a.data = b.data := List.append_cancel_left h2
  cases a; cases b
  exact congrArg String.mk h4

theorem addEnvVarPrefix_head (k : String) :
    (( addEnvVarPrefix k) : String).data.head? = some 'E' := by
  unfold addEnvVarPrefix
  have h : ("ENV_" ++ k).data = 'E' :: ('N' :: ('V' :: ('_' :: k.data))) := by
    rw [String.data_append]
    rfl
  rw [h]
  rfl

theorem addEnvVarPrefix_ne_of_head {k s : String} (h : s.data.head? ≠ some 'E') :
    ( addEnvVarPrefix k) ≠ s := by
  intro he
  apply h
  rw [← he]
  exact addEnvVarPrefix_head k

/-! ### Lemmas: the upsert pass -/

theorem pushUpsert_tr_shape (b : Backend) (D : List (String × String)) :
    ∀ (lks data : List (String × String)) (tr : List RemoteOp), ∃ ext,
      (pushUpsert b D lks data tr).tr = tr ++ ext ∧
      ∀ op ∈ ext, ∃ kv ∈ lks,
        op = RemoteOp.create ⟨kv.1, kv.2, keyTypeFor D kv.1⟩ ∨
        op = RemoteOp.update ⟨kv.1, kv.2, keyTypeFor D kv.1⟩ := by
  intro lks
  induction lks with
  | nil =>
    intro data tr
    exact ⟨[], by simp [pushUpsert], by simp⟩
  | cons kv rest ih =>
    intro data tr
    obtain ⟨k, v⟩ := kv
    cases hc : b.createRes ⟨k, v, keyTypeFor D k⟩ with
    | none =>
      obtain ⟨ext, hext, hops⟩ :=
        ih (mapInsert data ( addEnvVarPrefix k) (keyTypeFor D k))
          (tr ++ [RemoteOp.create ⟨k, v, keyTypeFor D k⟩])
      refine ⟨RemoteOp.create ⟨k, v, keyTypeFor D k⟩ :: ext, ?_, ?_⟩
      · simp only [pushUpsert, hc]
        rw [hext]
        simp
      · intro op hop
        rcases List.mem_cons.mp hop with hop | hop
        · exact ⟨(k, v), List.mem_cons_self _ _, Or.inl hop⟩
        · obtain ⟨kv2, hkv2, hor⟩ := hops op hop
          exact ⟨kv2, List.mem_cons_of_mem _ hkv2, hor⟩
    | some e1 =>
      cases hu : b.updateRes ⟨k, v, keyTypeFor D k⟩ with
      | none =>
        obtain ⟨ext, hext, hops⟩ :=
          ih (mapInsert data ( addEnvVarPrefix k) (keyTypeFor D k))
            (tr ++ [RemoteOp.create ⟨k, v, keyTypeFor D k⟩,
                    RemoteOp.update ⟨k, v, keyTypeFor D k⟩])
        refine ⟨RemoteOp.create ⟨k, v, keyTypeFor D k⟩ ::
          RemoteOp.update ⟨k, v, keyTypeFor D k⟩ :: ext, ?_, ?_⟩
        · simp only [pushUpsert, hc, hu]
          rw [hext]
          simp
        · intro op hop
          rcases List.mem_cons.mp hop with hop | hop
          · exact ⟨(k, v), List.mem_cons_self _ _, Or.inl hop⟩
          rcases List.mem_cons.mp hop with hop | hop
          · exact ⟨(k, v), List.mem_cons_self _ _, Or.inr hop⟩
          · obtain ⟨kv2, hkv2, hor⟩ := hops op hop
            exact ⟨kv2, List.mem_cons_of_mem _ hkv2, hor⟩
      | some e2 =>
        refine ⟨[RemoteOp.create ⟨k, v, keyTypeFor D k⟩,
                 RemoteOp.update ⟨k, v, keyTypeFor D k⟩], ?_, ?_⟩
        · simp [pushUpsert, hc, hu]
        · intro op hop
          rcases List.mem_cons.mp hop with hop | hop
          · exact ⟨(k, v), List.mem_cons_self _ _, Or.inl hop⟩
          rcases List.mem_cons.mp hop with hop | hop
          · exact ⟨(k, v), List.mem_cons_self _ _, Or.inr hop⟩
          · simp at hop

theorem pushUpsert_tr_mono (b : Backend) (D : List (String × String))
    (lks data : List (String × String)) (tr : List RemoteOp) {op : RemoteOp}
    (h : op ∈ tr) : op ∈ (pushUpsert b D lks data tr).tr := by
  obtain ⟨ext, hext, -⟩ := pushUpsert_tr_shape b D lks data tr
  rw [hext]
  exact List.mem_append_left _ h

theorem pushUpsert_mem_create (b : Backend) (D : List (String × String)) :
    ∀ (lks data : List (String × String)) (tr : List RemoteOp),
      (pushUpsert b D lks data tr).err = none →
      ∀ kv ∈ lks,
        RemoteOp.create ⟨kv.1, kv.2, keyTypeFor D kv.1⟩ ∈ (pushUpsert b D lks data tr).tr := by
  intro lks
  induction lks with
  | nil => intro data tr _ kv hkv; simp at hkv
  | cons kv0 rest ih =>
    intro data tr herr kv hkv
    obtain ⟨k, v⟩ := kv0
    cases hc : b.createRes ⟨k, v, keyTypeFor D k⟩ with
    | none =>
      rw [show pushUpsert b D ((k, v) :: rest) data tr =
        pushUpsert b D rest (mapInsert data ( addEnvVarPrefix k) (keyTypeFor D k))
          (tr ++ [RemoteOp.create ⟨k, v, keyTypeFor D k⟩]) from by
            simp [pushUpsert, hc]] at herr ⊢
      rcases List.mem_cons.mp hkv with hkv | hkv
      · subst hkv
        exact pushUpsert_tr_mono b D _ _ _ (by simp)
      · exact ih _ _ herr kv hkv
    | some e1 =>
      cases hu : b.updateRes ⟨k, v, keyTypeFor D k⟩ with
      | none =>
        rw [show pushUpsert b D ((k, v) :: rest) data tr =
          pushUpsert b D rest (mapInsert data ( addEnvVarPrefix k) (keyTypeFor D k))
            (tr ++ [RemoteOp.create ⟨k, v, keyTypeFor D k⟩,
                    RemoteOp.update ⟨k, v, keyTypeFor D k⟩]) from by
              simp [pushUpsert, hc, hu]] at herr ⊢
        rcases List.mem_cons.mp hkv with hkv | hkv
        · subst hkv
          exact pushUpsert_tr_mono b D _ _ _ (by simp)
        · exact ih _ _ herr kv hkv
      | some e2 =>
        rw [show pushUpsert b D ((k, v) :: rest) data tr =
          ⟨data, tr ++ [RemoteOp.create ⟨k, v, keyTypeFor D k⟩,
                        RemoteOp.update ⟨k, v, keyTypeFor D k⟩], some e2⟩ from by
            simp [pushUpsert, hc, hu]] at herr
        simp at herr

theorem pushUpsert_data_shape (b : Backend) (D : List (String × String)) :
    ∀ (lks data : List (String × String)) (tr : List RemoteOp), ∃ n, n ≤ lks.length ∧
      (pushUpsert b D lks data tr).data = (lks.take n).foldl (upsertStep D) data ∧
      ((pushUpsert b D lks data tr).err = none → n = lks.length) := by
  intro lks
  induction lks with
  | nil => intro data tr; exact ⟨0, by simp [pushUpsert]⟩
  | cons kv0 rest ih =>
    intro data tr
    obtain ⟨k, v⟩ := kv0
    cases hc : b.createRes ⟨k, v, keyTypeFor D k⟩ with
    | none =>
      obtain ⟨n, hn, hdata, herr⟩ :=
        ih (mapInsert data ( addEnvVarPrefix k) (keyTypeFor D k))
          (tr ++ [RemoteOp.create ⟨k, v, keyTypeFor D k⟩])
      refine ⟨n + 1, by simpa using hn, ?_, ?_⟩
      · simp only [pushUpsert, hc]
        rw [hdata]
        simp [upsertStep]
      · intro h2
        simp only [pushUpsert, hc] at h2
        have := herr h2
        simp [this]
    | some e1 =>
      cases hu : b.updateRes ⟨k, v, keyTypeFor D k⟩ with
      | none =>
        obtain ⟨n, hn, hdata, herr⟩ :=
          ih (mapInsert data ( addEnvVarPrefix k) (keyTypeFor D k))
            (tr ++ [RemoteOp.create ⟨k, v, keyTypeFor D k⟩,
                    RemoteOp.update ⟨k, v, keyTypeFor D k⟩])
        refine ⟨n + 1, by simpa using hn, ?_, ?_⟩
        · simp only [pushUpsert, hc, hu]
          rw [hdata]
          simp [upsertStep]
        · intro h2
          simp only [pushUpsert, hc, hu] at h2
          have := herr h2
          simp [this]
      | some e2 =>
        refine ⟨0, by simp, by simp [pushUpsert, hc, hu], ?_⟩
        intro h2
        simp [pushUpsert, hc, hu] at h2

theorem pushUpsert_data_preserve (b : Backend) (D : List (String × String)) :
    ∀ (lks data : List (String × String)) (tr : List RemoteOp) (key : String),
      (∀ k2 ∈ lks.map Prod.fst, ( addEnvVarPrefix k2) ≠ key) →
      lookupKV (pushUpsert b D lks data tr).data key = lookupKV data key := by
  intro lks
  induction lks with
  | nil => intro data tr key _; simp [pushUpsert]
  | cons kv0 rest ih =>
    intro data tr key hkey
    obtain ⟨k, v⟩ := kv0
    have hk : ( addEnvVarPrefix k) ≠ key := hkey k (by simp)
    have hrest : ∀ k2 ∈ rest.map Prod.fst, ( addEnvVarPrefix k2) ≠ key :=
      fun k2 hk2 => hkey k2 (by simp [hk2])
    have hmi : ∀ d : List (String × String),
        lookupKV (mapInsert d ( addEnvVarPrefix k) (keyTypeFor D k)) key = lookupKV d key :=
      fun d => lookupKV_mapInsert_ne d _ _ key (fun he => hk he.symm)
    cases hc : b.createRes ⟨k, v, keyTypeFor D k⟩ with
    | none =>
      simp only [pushUpsert, hc]
      rw [ih _ _ key hrest, hmi]
    | some e1 =>
      cases hu : b.updateRes ⟨k, v, keyTypeFor D k⟩ with
      | none =>
        simp only [pushUpsert, hc, hu]
        rw [ih _ _ key hrest, hmi]
      | some e2 =>
        simp [pushUpsert, hc, hu]

theorem pushUpsert_data_lookup (b : Backend) (D : List (String × String)) :
    ∀ (lks data : List (String × String)) (tr : List RemoteOp) (k : String),
      (pushUpsert b D lks data tr).err = none →
      k ∈ lks.map Prod.fst →
      lookupKV (pushUpsert b D lks data tr).data ( addEnvVarPrefix k) =
        some (keyTypeFor D k) := by
  intro lks
  induction lks with
  | nil => intro data tr k _ hk; simp at hk
  | cons kv0 rest ih =>
    intro data tr k herr hk
    obtain ⟨k0, v0⟩ := kv0
    by_cases hkr : k ∈ rest.map Prod.fst
    · cases hc : b.createRes ⟨k0, v0, keyTypeFor D k0⟩ with
      | none =>
        simp only [pushUpsert, hc] at herr ⊢
        exact ih _ _ k herr hkr
      | some e1 =>
        cases hu : b.updateRes ⟨k0, v0, keyTypeFor D k0⟩ with
        | none =>
          simp only [pushUpsert, hc, hu] at herr ⊢
          exact ih _ _ k herr hkr
        | some e2 =>
          simp [pushUpsert, hc, hu] at herr
    · have hk0 : k = k0 := by
        rcases (by simpa using hk : k = k0 ∨ k ∈ rest.map Prod.fst) with h | h
        · exact h
        · exact absurd h hkr
      subst hk0
      have hpres : ∀ k2 ∈ rest.map Prod.fst, ( addEnvVarPrefix k2) ≠ addEnvVarPrefix k :=
        fun k2 hk2 he => hkr (by rw [addEnvVarPrefix_inj he] at hk2; exact hk2)
      cases hc : b.createRes ⟨k, v0, keyTypeFor D k⟩ with
      | none =>
        simp only [pushUpsert, hc] at herr ⊢
        rw [pushUpsert_data_preserve b D rest _ _ _ hpres]
        exact lookupKV_mapInsert_self _ _ _
      | some e1 =>
        cases hu : b.updateRes ⟨k, v0, keyTypeFor D k⟩ with
        | none =>
          simp only [pushUpsert, hc, hu] at herr ⊢
          rw [pushUpsert_data_preserve b D rest _ _ _ hpres]
          exact lookupKV_mapInsert_self _ _ _
        | some e2 =>
          simp [pushUpsert, hc, hu] at herr

/-! ### Lemmas: the deletion pass -/

theorem pushDeletePass_tr_shape (b : Backend) (D L : List (String × String)) :
    ∀ (hks : List (String × harborKey)) (tr : List RemoteOp), ∃ ext,
      (pushDeletePass b D L hks tr).tr = tr ++ ext ∧
      ∀ op ∈ ext, ∃ k2, op = RemoteOp.delete k2 ∧
        (lookupKV D ( addEnvVarPrefix k2)).isSome = true ∧ lookupKV L k2 = none := by
  intro hks
  induction hks with
  | nil => intro tr; exact ⟨[], by simp [pushDeletePass], by simp⟩
  | cons q rest ih =>
    intro tr
    obtain ⟨k, hk⟩ := q
    by_cases howned : (lookupKV D ( addEnvVarPrefix k)).isSome = true
    · by_cases hlocal : (lookupKV L k).isNone = true
      · cases hd : b.deleteRes k with
        | none =>
          obtain ⟨ext, hext, hops⟩ := ih (tr ++ [RemoteOp.delete k])
          refine ⟨RemoteOp.delete k :: ext, ?_, ?_⟩
          · simp only [pushDeletePass, howned, hlocal, if_true, hd]
            rw [hext]
            simp
          · intro op hop
            rcases List.mem_cons.mp hop with hop | hop
            · exact ⟨k, hop, howned, Option.isNone_iff_eq_none.mp hlocal⟩
            · exact hops op hop
        | some e =>
          refine ⟨[RemoteOp.delete k], ?_, ?_⟩
          · simp [pushDeletePass, howned, hlocal, hd]
          · intro op hop
            rcases List.mem_cons.mp hop with hop | hop
            · exact ⟨k, hop, howned, Option.isNone_iff_eq_none.mp hlocal⟩
            · simp at hop
      · obtain ⟨ext, hext, hops⟩ := ih tr
        refine ⟨ext, ?_, hops⟩
        have hlf : (lookupKV L k).isNone = false := by
          cases hcase : (lookupKV L k).isNone
          · rfl
          · exact absurd hcase hlocal
        simpa [pushDeletePass, howned, hlf] using hext
    · obtain ⟨ext, hext, hops⟩ := ih tr
      refine ⟨ext, ?_, hops⟩
      have hof : (lookupKV D ( addEnvVarPrefix k)).isSome = false := by
        cases hcase : (lookupKV D ( addEnvVarPrefix k)).isSome
        · rfl
        · exact absurd hcase howned
      simpa [pushDeletePass, hof] using hext

theorem pushDeletePass_success (b : Backend) (D L : List (String × String))
    (hdel : ∀ k2, b.deleteRes k2 = none) :
    ∀ (hks : List (String × harborKey)) (tr : List RemoteOp),
      pushDeletePass b D L hks tr =
        ⟨tr ++ (hks.filter (fun q => (lookupKV D ( addEnvVarPrefix q.1)).isSome &&
            (lookupKV L q.1).isNone)).map (fun q => RemoteOp.delete q.1), none⟩ := by
  intro hks
  induction hks with
  | nil => intro tr; simp [pushDeletePass]
  | cons q rest ih =>
    intro tr
    obtain ⟨k, hk⟩ := q
    by_cases howned : (lookupKV D ( addEnvVarPrefix k)).isSome = true
    · by_cases hlocal : (lookupKV L k).isNone = true
      · simp only [pushDeletePass, howned, hlocal, if_true, hdel k]
        rw [ih (tr ++ [RemoteOp.delete k])]
        simp [List.filter_cons, howned, hlocal]
      · simp only [pushDeletePass, howned, if_true]
        rw [if_neg hlocal]
        rw [ih tr]
        have hcond : ((lookupKV D ( addEnvVarPrefix k)).isSome &&
            (lookupKV L k).isNone) = false := by
          simp only [Bool.and_eq_false_iff]
          right
          cases hcase : (lookupKV L k).isNone
          · rfl
          · exact absurd hcase hlocal
        simp [List.filter_cons, hcond]
    · simp only [pushDeletePass]
      rw [if_neg howned, ih tr]
      have hcond : ((lookupKV D ( addEnvVarPrefix k)).isSome &&
          (lookupKV L k).isNone) = false := by
        simp only [Bool.and_eq_false_iff]
        left
        cases hcase : (lookupKV D ( addEnvVarPrefix k)).isSome
        · rfl
        · exact absurd hcase howned
      simp [List.filter_cons, hcond]

/-! ### Lemmas: Push case analysis -/

theorem Push_of_upsert_err (b : Backend) (s : HarborStore) (file : File)
    (parsed : List (String × String)) (now : GoTime) (e : String)
    (h : (pushUpsert b file.Data (localKeysOf parsed now) (initialData s) []).err = some e) :
    Push b s file parsed now =
      ⟨(pushUpsert b file.Data (localKeysOf parsed now) (initialData s) []).data, false,
       some e,
       (pushUpsert b file.Data (localKeysOf parsed now) (initialData s) []).tr⟩ := by
  unfold Push
  rcases hu : pushUpsert b file.Data (localKeysOf parsed now) (initialData s) []
    with ⟨data, tr, err⟩
  rw [hu] at h
  simp only at h
  subst h
  simp

theorem Push_of_list_err (b : Backend) (s : HarborStore) (file : File)
    (parsed : List (String × String)) (now : GoTime) (e : String)
    (h : (pushUpsert b file.Data (localKeysOf parsed now) (initialData s) []).err = none)
    (hl : b.listRes = Except.error e) :
    Push b s file parsed now =
      ⟨(pushUpsert b file.Data (localKeysOf parsed now) (initialData s) []).data, false,
       some e,
       (pushUpsert b file.Data (localKeysOf parsed now) (initialData s) []).tr⟩ := by
  unfold Push
  rcases hu : pushUpsert b file.Data (localKeysOf parsed now) (initialData s) []
    with ⟨data, tr, err⟩
  rw [hu] at h
  simp only at h
  subst h
  simp [hl]

theorem Push_of_list_ok (b : Backend) (s : HarborStore) (file : File)
    (parsed : List (String × String)) (now : GoTime) (hkeys : List (String × harborKey))
    (h : (pushUpsert b file.Data (localKeysOf parsed now) (initialData s) []).err = none)
    (hl : b.listRes = Except.ok hkeys) :
    Push b s file parsed now =
      ⟨(pushUpsert b file.Data (localKeysOf parsed now) (initialData s) []).data, false,
       (pushDeletePass b file.Data (localKeysOf parsed now) hkeys
         (pushUpsert b file.Data (localKeysOf parsed now) (initialData s) []).tr).err,
       (pushDeletePass b file.Data (localKeysOf parsed now) hkeys
         (pushUpsert b file.Data (localKeysOf parsed now) (initialData s) []).tr).tr⟩ := by
  unfold Push
  rcases hu : pushUpsert b file.Data (localKeysOf parsed now) (initialData s) []
    with ⟨data, tr, err⟩
  rw [hu] at h
  simp only at h
  subst h
  simp [hl]

theorem Push_data_eq (b : Backend) (s : HarborStore) (file : File)
    (parsed : List (String × String)) (now : GoTime) :
    (Push b s file parsed now).data =
      (pushUpsert b file.Data (localKeysOf parsed now) (initialData s) []).data := by
  cases herr : (pushUpsert b file.Data (localKeysOf parsed now) (initialData s) []).err with
  | some e => rw [Push_of_upsert_err b s file parsed now e herr]
  | none =>
    cases hl : b.listRes with
    | error e => rw [Push_of_list_err b s file parsed now e herr hl]
    | ok hkeys => rw [Push_of_list_ok b s file parsed now hkeys herr hl]

/-! ### Lemmas: trace utilities -/

theorem deletesOf_append (t1 t2 : List RemoteOp) :
    deletesOf (t1 ++ t2) = deletesOf t1 ++ deletesOf t2 := by
  simp [deletesOf]

theorem deletesOf_of_no_delete {tr : List RemoteOp}
    (h : ∀ op ∈ tr, ∀ k, op ≠ RemoteOp.delete k) : deletesOf tr = [] := by
  induction tr with
  | nil => rfl
  | cons op rest ih =>
    have hop := h op (List.mem_cons_self _ _)
    have hrest := ih (fun op2 hop2 => h op2 (List.mem_cons_of_mem _ hop2))
    cases op with
    | create p => simpa [deletesOf] using hrest
    | update p => simpa [deletesOf] using hrest
    | delete k => exact absurd rfl (hop k)

theorem deletesOf_map_delete (l : List (String × harborKey)) :
    deletesOf (l.map (fun q => RemoteOp.delete q.1)) = l.map (fun q => q.1) := by
  induction l with
  | nil => rfl
  | cons q rest ih => simp [deletesOf] at ih ⊢; exact ih

/-! ### Lemmas: the supported-stores prompt string and the pull body -/

theorem string_length_ne_zero {s : String} (h : s ≠ "") : s.length ≠ 0 := by
  intro h0
  apply h
  cases s with
  | mk d =>
    have h2 : d = [] := List.length_eq_zero.mp h0
    rw [h2]

theorem comma_append_length_ne_zero (acc n : String) : (acc ++ "," ++ n).length ≠ 0 := by
  have h1 : ("," : String).length = 1 := rfl
  intro h0
  rw [String.length_append, String.length_append, h1] at h0
  omega

theorem supportedStores_foldl (t : String) :
    ∀ (l : List IStoreM) (acc : String), acc.length ≠ 0 →
      l.foldl (fun acc2 st => if st.supportsFileType t then
          (if acc2.length = 0 then st.name else acc2 ++ "," ++ st.name) else acc2) acc =
        ((l.filter (fun st => st.supportsFileType t)).map (fun st => st.name)).foldl
          (fun a n => a ++ "," ++ n) acc := by
  intro l
  induction l with
  | nil => intro acc _; rfl
  | cons st rest ih =>
    intro acc hacc
    by_cases hsup : st.supportsFileType t = true
    · have hlen : (acc ++ "," ++ st.name).length ≠ 0 :=
        comma_append_length_ne_zero acc st.name
      simp only [List.foldl_cons, hsup, if_true, if_neg hacc, List.filter_cons]
      rw [ih _ hlen]
      simp [hsup]
    · have hsf : st.supportsFileType t = false := by
        cases hcase : st.supportsFileType t
        · rfl
        · exact absurd hcase hsup
      simp only [List.foldl_cons, hsf, List.filter_cons]
      simp only [Bool.false_eq_true, if_false]
      exact ih acc hacc

theorem supportedStoresStr_eq (t : String) :
    ∀ stores : List IStoreM, (∀ st ∈ stores, st.name ≠ "") →
      supportedStoresStr stores t =
        joinComma ((stores.filter (fun st => st.supportsFileType t)).map
          (fun st => st.name)) := by
  intro stores
  induction stores with
  | nil => intro _; rfl
  | cons st rest ih =>
    intro hnames
    by_cases hsup : st.supportsFileType t = true
    · have hname : st.name ≠ "" := hnames st (List.mem_cons_self _ _)
      have hlen : st.name.length ≠ 0 := string_length_ne_zero hname
      unfold supportedStoresStr
      simp only [List.foldl_cons, hsup, if_true]
      norm_num
      rw [supportedStores_foldl t rest st.name hlen]
      simp [List.filter_cons, hsup, joinComma]
    · have hsf : st.supportsFileType t = false := by
        cases hcase : st.supportsFileType t
        · rfl
        · exact absurd hcase hsup
      have hrest := ih (fun st2 h2 => hnames st2 (List.mem_cons_of_mem _ h2))
      unfold supportedStoresStr at hrest ⊢
      simp only [List.foldl_cons, hsf, List.filter_cons]
      simp only [Bool.false_eq_true, if_false]
      exact hrest

theorem pullBody_eq (fileData : List (String × String)) :
    ∀ keys : List (String × harborKey),
      pullBody fileData keys =
        concatAll ((keys.filter (fun q => (!(q.1 == modifiedToken)) &&
            (lookupKV fileData ( addEnvVarPrefix q.1)).isSome)).map
          (fun q => q.1 ++ "=" ++ q.2.value ++ "\n")) := by
  intro keys
  induction keys with
  | nil => rfl
  | cons q rest ih =>
    obtain ⟨k, hk⟩ := q
    by_cases hm : k = modifiedToken
    · subst hm
      simp [pullBody, List.filter_cons, ih]
    · by_cases ho : (lookupKV fileData ( addEnvVarPrefix k)).isSome = true
      · have hbeq : (k == modifiedToken) = false := by simpa using hm
        simp [pullBody, hm, ho, List.filter_cons, hbeq, concatAll, ih]
      · have hof : (lookupKV fileData ( addEnvVarPrefix k)).isSome = false := by
          cases hcase : (lookupKV fileData ( addEnvVarPrefix k)).isSome
          · rfl
          · exact absurd hcase ho
        simp [pullBody, hm, hof, List.filter_cons, ih]

theorem Push_err_none (b : Backend) (s : HarborStore) (file : File)
    (parsed : List (String × String)) (now : GoTime)
    (h : (Push b s file parsed now).err = none) :
    (pushUpsert b file.Data (localKeysOf parsed now) (initialData s) []).err = none := by
  cases herr : (pushUpsert b file.Data (localKeysOf parsed now) (initialData s) []).err with
  | none => rfl
  | some e =>
    rw [Push_of_upsert_err b s file parsed now e herr] at h
    simp at h

theorem Push_tr_mem (b : Backend) (s : HarborStore) (file : File)
    (parsed : List (String × String)) (now : GoTime) {op : RemoteOp}
    (h : op ∈ (pushUpsert b file.Data (localKeysOf parsed now) (initialData s) []).tr) :
    op ∈ (Push b s file parsed now).tr := by
  cases herr : (pushUpsert b file.Data (localKeysOf parsed now) (initialData s) []).err with
  | some e =>
    rw [Push_of_upsert_err b s file parsed now e herr]
    exact h
  | none =>
    cases hl : b.listRes with
    | error e =>
      rw [Push_of_list_err b s file parsed now e herr hl]
      exact h
    | ok hkeys =>
      rw [Push_of_list_ok b s file parsed now hkeys herr hl]
      obtain ⟨ext, hext, -⟩ := pushDeletePass_tr_shape b file.Data (localKeysOf parsed now)
        hkeys (pushUpsert b file.Data (localKeysOf parsed now) (initialData s) []).tr
      simp only
      rw [hext]
      exact List.mem_append_left _ h

theorem pushUpsert_tr_no_delete (b : Backend) (D : List (String × String))
    (lks data : List (String × String)) :
    ∀ op ∈ (pushUpsert b D lks data []).tr, ∀ k2, op ≠ RemoteOp.delete k2 := by
  intro op hop k2 he
  obtain ⟨ext, hext, hops⟩ := pushUpsert_tr_shape b D lks data []
  rw [hext] at hop
  simp only [List.nil_append] at hop
  obtain ⟨kv, -, hor⟩ := hops op hop
  subst he
  rcases hor with h2 | h2 <;> simp at h2

theorem Push_tr_split (b2 : Backend) (s2 : HarborStore) (f2 : File)
    (p2 : List (String × String)) (n2 : GoTime) :
    ∃ t1 t2, (Push b2 s2 f2 p2 n2).tr = t1 ++ t2
      ∧ (∀ op ∈ t1, ∀ k2, op ≠ RemoteOp.delete k2)
      ∧ (∀ op ∈ t2, ∃ k2, op = RemoteOp.delete k2) := by
  have hno := pushUpsert_tr_no_delete b2 f2.Data (localKeysOf p2 n2) (initialData s2)
  cases herr : (pushUpsert b2 f2.Data (localKeysOf p2 n2) (initialData s2) []).err with
  | some e =>
    refine ⟨(pushUpsert b2 f2.Data (localKeysOf p2 n2) (initialData s2) []).tr, [], ?_, hno, ?_⟩
    · rw [Push_of_upsert_err b2 s2 f2 p2 n2 e herr]
      simp
    · intro op hop; simp at hop
  | none =>
    cases hl : b2.listRes with
    | error e =>
      refine ⟨(pushUpsert b2 f2.Data (localKeysOf p2 n2) (initialData s2) []).tr, [], ?_, hno, ?_⟩
      · rw [Push_of_list_err b2 s2 f2 p2 n2 e herr hl]
        simp
      · intro op hop; simp at hop
    | ok hkeys =>
      obtain ⟨ext, hext, hops⟩ := pushDeletePass_tr_shape b2 f2.Data (localKeysOf p2 n2)
        hkeys (pushUpsert b2 f2.Data (localKeysOf p2 n2) (initialData s2) []).tr
      refine ⟨(pushUpsert b2 f2.Data (localKeysOf p2 n2) (initialData s2) []).tr, ext, ?_, hno, ?_⟩
      · rw [Push_of_list_ok b2 s2 f2 p2 n2 hkeys herr hl]
        exact hext
      · intro op hop
        obtain ⟨k2, hk2, -, -⟩ := hops op hop
        exact ⟨k2, hk2⟩

theorem pushUpsert_fail (b : Backend) (D : List (String × String))
    (kv : String × String) (post : List (String × String)) (e1 e2 : String)
    (hc : b.createRes ⟨kv.1, kv.2, keyTypeFor D kv.1⟩ = some e1)
    (hu2 : b.updateRes ⟨kv.1, kv.2, keyTypeFor D kv.1⟩ = some e2) :
    ∀ (pre data : List (String × String)) (tr : List RemoteOp),
      (∀ q ∈ pre, b.createRes ⟨q.1, q.2, keyTypeFor D q.1⟩ = none ∨
        b.updateRes ⟨q.1, q.2, keyTypeFor D q.1⟩ = none) →
      (pushUpsert b D (pre ++ kv :: post) data tr).err = some e2 ∧
      ∃ ext, (pushUpsert b D (pre ++ kv :: post) data tr).tr = tr ++ ext ∧
        (∀ q ∈ pre, RemoteOp.create ⟨q.1, q.2, keyTypeFor D q.1⟩ ∈ ext) := by
  intro pre
  induction pre with
  | nil =>
    intro data tr _
    obtain ⟨k, v⟩ := kv
    simp only at hc hu2
    constructor
    · simp [pushUpsert, hc, hu2]
    · refine ⟨[RemoteOp.create ⟨k, v, keyTypeFor D k⟩,
               RemoteOp.update ⟨k, v, keyTypeFor D k⟩], ?_, ?_⟩
      · simp [pushUpsert, hc, hu2]
      · intro q hq; simp at hq
  | cons q0 pre2 ih =>
    intro data tr hpre
    obtain ⟨k0, v0⟩ := q0
    have hq0 := hpre (k0, v0) (List.mem_cons_self _ _)
    have hpre2 : ∀ q ∈ pre2, b.createRes ⟨q.1, q.2, keyTypeFor D q.1⟩ = none ∨
        b.updateRes ⟨q.1, q.2, keyTypeFor D q.1⟩ = none :=
      fun q hq => hpre q (List.mem_cons_of_mem _ hq)
    cases hcq : b.createRes ⟨k0, v0, keyTypeFor D k0⟩ with
    | none =>
      obtain ⟨herr, ext, hext, hmem⟩ :=
        ih (mapInsert data ( addEnvVarPrefix k0) (keyTypeFor D k0))
          (tr ++ [RemoteOp.create ⟨k0, v0, keyTypeFor D k0⟩]) hpre2
      refine ⟨?_, RemoteOp.create ⟨k0, v0, keyTypeFor D k0⟩ :: ext, ?_, ?_⟩
      · simpa only [List.cons_append, pushUpsert, hcq] using herr
      · rw [show ((k0, v0) :: pre2) ++ kv :: post = (k0, v0) :: (pre2 ++ kv :: post) from rfl]
        simp only [pushUpsert, hcq]
        rw [hext]
        simp
      · intro q hq
        rcases List.mem_cons.mp hq with hq | hq
        · subst hq
          exact List.mem_cons_self _ _
        · exact List.mem_cons_of_mem _ (hmem q hq)
    | some e0 =>
      have huq : b.updateRes ⟨k0, v0, keyTypeFor D k0⟩ = none := by
        rcases hq0 with h2 | h2
        · rw [hcq] at h2; exact absurd h2 (by simp)
        · exact h2
      obtain ⟨herr, ext, hext, hmem⟩ :=
        ih (mapInsert data ( addEnvVarPrefix k0) (keyTypeFor D k0))
          (tr ++ [RemoteOp.create ⟨k0, v0, keyTypeFor D k0⟩,
                  RemoteOp.update ⟨k0, v0, keyTypeFor D k0⟩]) hpre2
      refine ⟨?_, RemoteOp.create ⟨k0, v0, keyTypeFor D k0⟩ ::
        RemoteOp.update ⟨k0, v0, keyTypeFor D k0⟩ :: ext, ?_, ?_⟩
      · simpa only [List.cons_append, pushUpsert, hcq, huq] using herr
      · rw [show ((k0, v0) :: pre2) ++ kv :: post = (k0, v0) :: (pre2 ++ kv :: post) from rfl]
        simp only [pushUpsert, hcq, huq]
        rw [hext]
        simp
      · intro q hq
        rcases List.mem_cons.mp hq with hq | hq
        · subst hq
          exact List.mem_cons_self _ _
        · exact List.mem_cons_of_mem _ (List.mem_cons_of_mem _ (hmem q hq))

/-! ### Claim theorems -/

/-- Claim C4: when `file.Store` is non-empty and names a registered adapter,
`Select` returns that adapter after invoking its `Pre` method and without
prompting the user; when it names no registered adapter, `Select` returns
`ErrStoreNotFound` without calling `Pre` and without performing any
collaborator (network) call. -/
theorem c4_select_bound_store (stores : List IStoreM) (choice dflt : String) (file : File)
    (h : 0 < file.Store.length) :
    (∀ st, findStore stores file.Store = some st →
      selectM stores choice dflt file =
        ⟨some st, st.preErr.map StoreErr.pre, [SelectEvent.preCall st.name], file⟩)
    ∧ (findStore stores file.Store = none →
      selectM stores choice dflt file = ⟨none, some StoreErr.notFound, [], file⟩) := by
  constructor
  · intro st hst
    unfold selectM
    rw [if_pos h, hst]
  · intro hst
    unfold selectM
    rw [if_pos h, hst]

theorem c4_select_bound_store_witness :
    0 < fBound.Store.length
    ∧ ((∀ st, findStore [stH] fBound.Store = some st →
          selectM [stH] "ignored" "aws-s3" fBound =
            ⟨some st, st.preErr.map StoreErr.pre, [SelectEvent.preCall st.name], fBound⟩)
      ∧ (findStore [stH] fBound.Store = none →
          selectM [stH] "ignored" "aws-s3" fBound =
            ⟨none, some StoreErr.notFound, [], fBound⟩)) :=
  ⟨by decide, c4_select_bound_store [stH] "ignored" "aws-s3" fBound (by decide)⟩

/-- Claim C5 as stated is false at this input: with empty `file.Store` and the
user choosing the registered adapter `"harbor"`, `Select` returns that adapter
but does not bind its name into `file.Store` (store.go never assigns
`file.Store`): the file after `Select` still has `Store = ""`. -/
theorem c5_select_counterexample :
    (selectM [stH] "harbor" "aws-s3" fPrompt).store.map (fun st => st.name) = some "harbor"
    ∧ (selectM [stH] "harbor" "aws-s3" fPrompt).fileAfter.Store = ""
    ∧ ("" : String) ≠ "harbor" := by
  refine ⟨by decide, by decide, by decide⟩

/-- Claim C5 (amended): when `file.Store` is empty, `Select` prompts with exactly
the names of the registered adapters whose `SupportsFileType(file.Type)` is true
(with the default suggestion) and returns the adapter named by the user's input
after calling its `Pre`; input naming no registered adapter yields
`ErrStoreNotFound`. `Select` leaves `file.Store` (and the whole file) unchanged;
the binding is not performed by `Select`. -/
theorem c5_select_prompted_store (stores : List IStoreM) (choice dflt : String) (file : File)
    (h : file.Store.length = 0) :
    (selectM stores choice dflt file).fileAfter = file
    ∧ ((∀ st ∈ stores, st.name ≠ "") →
        supportedStoresStr stores file.ftype =
          joinComma ((stores.filter (fun st => st.supportsFileType file.ftype)).map
            (fun st => st.name)))
    ∧ (∀ st, findStore stores choice = some st →
        selectM stores choice dflt file =
          ⟨some st, st.preErr.map StoreErr.pre,
           [SelectEvent.promptUser (supportedStoresStr stores file.ftype) dflt,
            SelectEvent.preCall st.name], file⟩)
    ∧ (findStore stores choice = none →
        selectM stores choice dflt file =
          ⟨none, some StoreErr.notFound,
           [SelectEvent.promptUser (supportedStoresStr stores file.ftype) dflt], file⟩) := by
  have hneg : ¬ 0 < file.Store.length := by omega
  refine ⟨?_, fun hnames => supportedStoresStr_eq file.ftype stores hnames, ?_, ?_⟩
  · unfold selectM
    rw [if_neg hneg]
    cases hf : findStore stores choice <;> rfl
  · intro st hst
    unfold selectM
    rw [if_neg hneg, hst]
  · intro hst
    unfold selectM
    rw [if_neg hneg, hst]

theorem c5_select_prompted_store_witness :
    fPrompt.Store.length = 0
    ∧ ((selectM [stH] "harbor" "aws-s3" fPrompt).fileAfter = fPrompt
      ∧ ((∀ st ∈ [stH], st.name ≠ "") →
          supportedStoresStr [stH] fPrompt.ftype =
            joinComma (([stH].filter (fun st => st.supportsFileType fPrompt.ftype)).map
              (fun st => st.name)))
      ∧ (∀ st, findStore [stH] "harbor" = some st →
          selectM [stH] "harbor" "aws-s3" fPrompt =
            ⟨some st, st.preErr.map StoreErr.pre,
             [SelectEvent.promptUser (supportedStoresStr [stH] fPrompt.ftype) "aws-s3",
              SelectEvent.preCall st.name], fPrompt⟩)
      ∧ (findStore [stH] "harbor" = none →
          selectM [stH] "harbor" "aws-s3" fPrompt =
            ⟨none, some StoreErr.notFound,
             [SelectEvent.promptUser (supportedStoresStr [stH] fPrompt.ftype) "aws-s3"],
             fPrompt⟩)) :=
  ⟨by decide, c5_select_prompted_store [stH] "harbor" "aws-s3" fPrompt (by decide)⟩

/-- Claim C6, evaluated at the failing input: a Push of local key `FOO` creates
the remote key `FOO` and records the catalog entry `ENV_FOO ↦ hidden`; `Purge`
on that catalog then issues a remote deletion of the literal entry key
`ENV_FOO` — not of the corresponding remote key `FOO`, which is never deleted.
(The iteration/filtering/fail-fast parts of the claim match the code: an entry
whose value is not a recognized classification triggers no deletion.) -/
theorem c6_purge_failing_input :
    RemoteOp.create ⟨"FOO", "bar", envTypeHidden⟩ ∈
      (Push (bAllOK []) sW fC2 [("FOO", "bar")] tW).tr
    ∧ lookupKV (Push (bAllOK []) sW fC2 [("FOO", "bar")] tW).data "ENV_FOO" =
        some envTypeHidden
    ∧ (Purge (bAllOK []) ⟨".env", "harbor", "env", true, [("ENV_FOO", "hidden")]⟩).tr =
        [RemoteOp.delete "ENV_FOO"]
    ∧ RemoteOp.delete "FOO" ∉
        (Purge (bAllOK []) ⟨".env", "harbor", "env", true, [("ENV_FOO", "hidden")]⟩).tr
    ∧ (Purge (bAllOK []) ⟨".env", "harbor", "env", true, [("ENV_FOO", "unrelated")]⟩).tr =
        [] := by
  refine ⟨by decide, by decide, by decide, by decide, by decide⟩

/-- Claim C7, evaluated at the failing input: with no cached credentials and the
login backend reporting failure without a transport error (`Login` returns
`success = false, err = nil`), `Pre` takes its early return but the returned
error is nil — authentication was not established yet `Pre` reports success. -/
theorem c7_pre_failing_input :
    envLoginFail.cvUser = none
    ∧ envLoginFail.cvToken = none
    ∧ envLoginFail.loginSuccess = false
    ∧ envLoginFail.loginErr = none
    ∧ (PreRun envLoginFail fPrompt).err = none := by
  refine ⟨rfl, rfl, rfl, rfl, rfl⟩

/-- Claim C8: the sentinel value `Push` injects under the synthetic
last-modified key is rendered in the fixed layout `Pull` parses, so a Pull
observing that sentinel parses it successfully and reports the pushed
timestamp as `LastModified` instead of falling back to the current time. -/
theorem c8_sentinel_roundtrip (t : GoTime) (parsed : List (String × String))
    (file : File) (keys : List (String × harborKey)) (b : Backend) (nowP : GoTime)
    (ty : String) (h : t.wf)
    (hlist : b.listRes = Except.ok keys)
    (hsent : lookupKV keys modifiedToken = some ⟨goTimeString t, ty⟩) :
    lookupKV (localKeysOf parsed t) modifiedToken = some (goTimeString t)
    ∧ parseModified (goTimeString t) = some t
    ∧ (Pull b file nowP).2.1 = ⟨t⟩ := by
  refine ⟨lookupKV_mapInsert_self parsed modifiedToken (goTimeString t),
    parseModified_goTimeString t h, ?_⟩
  simp only [Pull, hlist]
  simp only [pullAttr, hsent]
  rw [parseModified_goTimeString t h]

theorem c8_sentinel_roundtrip_witness :
    tW.wf
    ∧ (bAllOK [(modifiedToken, ⟨goTimeString tW, "hidden"⟩)]).listRes =
        Except.ok [(modifiedToken, ⟨goTimeString tW, "hidden"⟩)]
    ∧ lookupKV [(modifiedToken, (⟨goTimeString tW, "hidden"⟩ : harborKey))] modifiedToken =
        some ⟨goTimeString tW, "hidden"⟩
    ∧ (lookupKV (localKeysOf [] tW) modifiedToken = some (goTimeString tW)
      ∧ parseModified (goTimeString tW) = some tW
      ∧ (Pull (bAllOK [(modifiedToken, ⟨goTimeString tW, "hidden"⟩)]) fPrompt tOther).2.1 =
          ⟨tW⟩) :=
  ⟨by decide, rfl, by decide,
   c8_sentinel_roundtrip tW [] fPrompt [(modifiedToken, ⟨goTimeString tW, "hidden"⟩)]
     (bAllOK [(modifiedToken, ⟨goTimeString tW, "hidden"⟩)]) tOther "hidden"
     (by decide) rfl (by decide)⟩

/-- Claim C9: `Pull` emits a `key=value` line for a remote key exactly when
`file.Data` holds the corresponding prefixed entry, and the synthetic sentinel
key is never emitted in the body; in the concrete scenario with remote
`{X: "1"}` plus the sentinel and a catalog claiming only `X`, `Pull` returns
exactly the bytes `"X=1\n"` (with `LastModified` parsed from the sentinel). -/
theorem c9_pull_ownership (fileData : List (String × String))
    (keys : List (String × harborKey)) :
    pullBody fileData keys =
      concatAll ((keys.filter (fun q => (!(q.1 == modifiedToken)) &&
          (lookupKV fileData ( addEnvVarPrefix q.1)).isSome)).map
        (fun q => q.1 ++ "=" ++ q.2.value ++ "\n"))
    ∧ Pull (bAllOK keysC9) fC9 tOther = ("X=1\n", ⟨tW⟩, none) :=
  ⟨pullBody_eq fileData keys, by decide⟩

theorem lookupKV_initialData (s : HarborStore) :
    lookupKV (initialData s) shipmentToken = some s.Shipment.Name
    ∧ lookupKV (initialData s) containerToken = some s.Shipment.Container
    ∧ lookupKV (initialData s) envToken = some s.Shipment.Env := by
  refine ⟨?_, ?_, ?_⟩
  · simp [initialData, lookupKV]
  · have h1 : ¬ (shipmentToken = containerToken) := by decide
    simp [initialData, lookupKV, h1]
  · have h1 : ¬ (shipmentToken = envToken) := by decide
    have h2 : ¬ (containerToken = envToken) := by decide
    simp [initialData, lookupKV, h1, h2]

/-- Claim C10: on every call, also on error returns, `Push` returns a metadata
map holding the three coordinate entries for the session's shipment, container
and environment, together with the prefixed classifications of exactly the
local keys processed before the point of return (all of them when the
upsert pass succeeded). -/
theorem c10_push_returned_metadata (b : Backend) (s : HarborStore) (file : File)
    (parsed : List (String × String)) (now : GoTime) :
    lookupKV (Push b s file parsed now).data shipmentToken = some s.Shipment.Name
    ∧ lookupKV (Push b s file parsed now).data containerToken = some s.Shipment.Container
    ∧ lookupKV (Push b s file parsed now).data envToken = some s.Shipment.Env
    ∧ (Push b s file parsed now).data ≠ []
    ∧ ∃ n, n ≤ (localKeysOf parsed now).length
        ∧ (Push b s file parsed now).data =
            ((localKeysOf parsed now).take n).foldl (upsertStep file.Data) (initialData s)
        ∧ ((Push b s file parsed now).err = none → n = (localKeysOf parsed now).length) := by
  have hship : lookupKV (Push b s file parsed now).data shipmentToken =
      some s.Shipment.Name := by
    rw [Push_data_eq]
    rw [pushUpsert_data_preserve b file.Data (localKeysOf parsed now) (initialData s) []
      shipmentToken (fun k2 _ => addEnvVarPrefix_ne_of_head (by decide))]
    exact (lookupKV_initialData s).1
  refine ⟨hship, ?_, ?_, ?_, ?_⟩
  · rw [Push_data_eq]
    rw [pushUpsert_data_preserve b file.Data (localKeysOf parsed now) (initialData s) []
      containerToken (fun k2 _ => addEnvVarPrefix_ne_of_head (by decide))]
    exact (lookupKV_initialData s).2.1
  · rw [Push_data_eq]
    rw [pushUpsert_data_preserve b file.Data (localKeysOf parsed now) (initialData s) []
      envToken (fun k2 _ => addEnvVarPrefix_ne_of_head (by decide))]
    exact (lookupKV_initialData s).2.2
  · intro hnil
    rw [hnil] at hship
    simp [lookupKV] at hship
  · obtain ⟨n, hn, hdata, herr⟩ :=
      pushUpsert_data_shape b file.Data (localKeysOf parsed now) (initialData s) []
    refine ⟨n, hn, ?_, ?_⟩
    · rw [Push_data_eq]
      exact hdata
    · intro h2
      exact herr (Push_err_none b s file parsed now h2)

/-- Claim C1: after a successful upsert pass, `Push` deletes remotely exactly
the remote keys with a prefixed entry in the pre-Push `file.Data` that are
absent from the local key set (the injected sentinel counting as local); every
remote operation of the run addresses a key that is previously owned or local
(never a key that is neither); every local key is upserted. In particular, with
local `{a, b}` and previously owned `{a, b, c}`, `Push` upserts `a` and `b` and
deletes exactly `c`. -/
theorem c1_push_reconciliation (b : Backend) (s : HarborStore) (file : File)
    (parsed : List (String × String)) (now : GoTime) (hkeys : List (String × harborKey))
    (hup : (pushUpsert b file.Data (localKeysOf parsed now) (initialData s) []).err = none)
    (hlist : b.listRes = Except.ok hkeys)
    (hdel : ∀ k2, b.deleteRes k2 = none) :
    (deletesOf (Push b s file parsed now).tr =
      (hkeys.filter (fun q => (lookupKV file.Data ( addEnvVarPrefix q.1)).isSome &&
        (lookupKV (localKeysOf parsed now) q.1).isNone)).map (fun q => q.1)
    ∧ (Push b s file parsed now).err = none
    ∧ (∀ op ∈ (Push b s file parsed now).tr,
        (lookupKV file.Data ( addEnvVarPrefix (opKey op))).isSome = true ∨
        (lookupKV (localKeysOf parsed now) (opKey op)).isSome = true)
    ∧ (∀ kv ∈ localKeysOf parsed now,
        RemoteOp.create ⟨kv.1, kv.2, keyTypeFor file.Data kv.1⟩ ∈
          (Push b s file parsed now).tr)
    ∧ deletesOf (Push (bAllOK hkC1) sW fC1 parsedC1 tW).tr = ["c"]
    ∧ RemoteOp.create ⟨"a", "1", envTypeHidden⟩ ∈ (Push (bAllOK hkC1) sW fC1 parsedC1 tW).tr
    ∧ RemoteOp.create ⟨"b", "2", envTypeHidden⟩ ∈
        (Push (bAllOK hkC1) sW fC1 parsedC1 tW).tr) := by
  have hpush := Push_of_list_ok b s file parsed now hkeys hup hlist
  have hdp := pushDeletePass_success b file.Data (localKeysOf parsed now) hdel hkeys
    (pushUpsert b file.Data (localKeysOf parsed now) (initialData s) []).tr
  obtain ⟨ext, hext, hops⟩ :=
    pushUpsert_tr_shape b file.Data (localKeysOf parsed now) (initialData s) []
  have hnd : deletesOf
      (pushUpsert b file.Data (localKeysOf parsed now) (initialData s) []).tr = [] :=
    deletesOf_of_no_delete (pushUpsert_tr_no_delete b file.Data _ _)
  refine ⟨?_, ?_, ?_, ?_, by decide, by decide, by decide⟩
  · rw [hpush]
    simp only
    rw [hdp]
    simp only
    rw [deletesOf_append, hnd, deletesOf_map_delete]
    simp
  · rw [hpush]
    simp only
    rw [hdp]
  · intro op hop
    rw [hpush] at hop
    simp only at hop
    rw [hdp] at hop
    simp only at hop
    rcases List.mem_append.mp hop with hop | hop
    · rw [hext] at hop
      simp only [List.nil_append] at hop
      obtain ⟨kv, hkv, hor⟩ := hops op hop
      right
      rw [lookupKV_isSome_iff]
      rcases hor with h2 | h2 <;>
        (subst h2; exact List.mem_map_of_mem Prod.fst hkv)
    · obtain ⟨q, hq, hqeq⟩ := List.mem_map.mp hop
      left
      have hqf := (List.mem_filter.mp hq).2
      rw [Bool.and_eq_true] at hqf
      rw [← hqeq]
      exact hqf.1
  · intro kv hkv
    exact Push_tr_mem b s file parsed now
      (pushUpsert_mem_create b file.Data _ _ _ hup kv hkv)

theorem c1_push_reconciliation_witness :
    ((pushUpsert (bAllOK hkC1) fC1.Data (localKeysOf parsedC1 tW) (initialData sW) []).err
        = none)
    ∧ ((bAllOK hkC1).listRes = Except.ok hkC1)
    ∧ (∀ k2, (bAllOK hkC1).deleteRes k2 = none)
    ∧ ((deletesOf (Push (bAllOK hkC1) sW fC1 parsedC1 tW).tr =
        (hkC1.filter (fun q => (lookupKV fC1.Data ( addEnvVarPrefix q.1)).isSome &&
          (lookupKV (localKeysOf parsedC1 tW) q.1).isNone)).map (fun q => q.1)
      ∧ (Push (bAllOK hkC1) sW fC1 parsedC1 tW).err = none
      ∧ (∀ op ∈ (Push (bAllOK hkC1) sW fC1 parsedC1 tW).tr,
          (lookupKV fC1.Data ( addEnvVarPrefix (opKey op))).isSome = true ∨
          (lookupKV (localKeysOf parsedC1 tW) (opKey op)).isSome = true)
      ∧ (∀ kv ∈ localKeysOf parsedC1 tW,
          RemoteOp.create ⟨kv.1, kv.2, keyTypeFor fC1.Data kv.1⟩ ∈
            (Push (bAllOK hkC1) sW fC1 parsedC1 tW).tr)
      ∧ deletesOf (Push (bAllOK hkC1) sW fC1 parsedC1 tW).tr = ["c"]
      ∧ RemoteOp.create ⟨"a", "1", envTypeHidden⟩ ∈
          (Push (bAllOK hkC1) sW fC1 parsedC1 tW).tr
      ∧ RemoteOp.create ⟨"b", "2", envTypeHidden⟩ ∈
          (Push (bAllOK hkC1) sW fC1 parsedC1 tW).tr)) :=
  ⟨by decide, rfl, fun _ => rfl,
   c1_push_reconciliation (bAllOK hkC1) sW fC1 parsedC1 tW hkC1 (by decide) rfl
     (fun _ => rfl)⟩

/-- Claim C2: in `Push`, a local key whose prefixed entry in the pre-Push
`file.Data` records a classification different from the generic plain-env-var
marker is upserted with that classification and it is recorded in the returned
metadata; otherwise the key is classified `hidden`. Concretely, pushing
`FOO=bar` with no prior entry records `ENV_FOO ↦ hidden` and creates remote key
`FOO` with type `hidden`; a key previously classified `discover` keeps it. -/
theorem c2_push_classification (b : Backend) (s : HarborStore) (file : File)
    (parsed : List (String × String)) (now : GoTime)
    (hup : (pushUpsert b file.Data (localKeysOf parsed now) (initialData s) []).err
      = none) :
    ((∀ kv ∈ localKeysOf parsed now,
      (∀ ty, lookupKV file.Data ( addEnvVarPrefix kv.1) = some ty → ty ≠ envVarType →
        RemoteOp.create ⟨kv.1, kv.2, ty⟩ ∈ (Push b s file parsed now).tr
        ∧ lookupKV (Push b s file parsed now).data ( addEnvVarPrefix kv.1) = some ty)
      ∧ ((lookupKV file.Data ( addEnvVarPrefix kv.1) = none ∨
          lookupKV file.Data ( addEnvVarPrefix kv.1) = some envVarType) →
        RemoteOp.create ⟨kv.1, kv.2, envTypeHidden⟩ ∈ (Push b s file parsed now).tr
        ∧ lookupKV (Push b s file parsed now).data ( addEnvVarPrefix kv.1) =
            some envTypeHidden))
    ∧ lookupKV (Push (bAllOK []) sW fC2 [("FOO", "bar")] tW).data "ENV_FOO" =
        some envTypeHidden
    ∧ RemoteOp.create ⟨"FOO", "bar", envTypeHidden⟩ ∈
        (Push (bAllOK []) sW fC2 [("FOO", "bar")] tW).tr
    ∧ lookupKV (Push (bAllOK []) sW fC2b [("X", "1")] tW).data "ENV_X" =
        some envTypeDiscover
    ∧ RemoteOp.create ⟨"X", "1", envTypeDiscover⟩ ∈
        (Push (bAllOK []) sW fC2b [("X", "1")] tW).tr) := by
  refine ⟨?_, by decide, by decide, by decide, by decide⟩
  intro kv hkv
  have hmemf : kv.1 ∈ (localKeysOf parsed now).map Prod.fst :=
    List.mem_map_of_mem Prod.fst hkv
  have hcreate := pushUpsert_mem_create b file.Data _ _ _ hup kv hkv
  have hdata := pushUpsert_data_lookup b file.Data _ (initialData s) [] kv.1 hup hmemf
  constructor
  · intro ty hlook hty
    have hkt : keyTypeFor file.Data kv.1 = ty := by
      unfold keyTypeFor
      rw [hlook]
      simp [hty]
    rw [hkt] at hcreate hdata
    exact ⟨Push_tr_mem b s file parsed now hcreate, by rw [Push_data_eq]; exact hdata⟩
  · intro hor
    have hkt : keyTypeFor file.Data kv.1 = envTypeHidden := by
      unfold keyTypeFor
      rcases hor with h2 | h2
      · rw [h2]
      · rw [h2]
        simp [envVarType]
    rw [hkt] at hcreate hdata
    exact ⟨Push_tr_mem b s file parsed now hcreate, by rw [Push_data_eq]; exact hdata⟩

theorem c2_push_classification_witness :
    ((pushUpsert (bAllOK []) fC2.Data (localKeysOf [("FOO", "bar")] tW)
        (initialData sW) []).err = none)
    ∧ ((∀ kv ∈ localKeysOf [("FOO", "bar")] tW,
      (∀ ty, lookupKV fC2.Data ( addEnvVarPrefix kv.1) = some ty → ty ≠ envVarType →
        RemoteOp.create ⟨kv.1, kv.2, ty⟩ ∈
          (Push (bAllOK []) sW fC2 [("FOO", "bar")] tW).tr
        ∧ lookupKV (Push (bAllOK []) sW fC2 [("FOO", "bar")] tW).data
            ( addEnvVarPrefix kv.1) = some ty)
      ∧ ((lookupKV fC2.Data ( addEnvVarPrefix kv.1) = none ∨
          lookupKV fC2.Data ( addEnvVarPrefix kv.1) = some envVarType) →
        RemoteOp.create ⟨kv.1, kv.2, envTypeHidden⟩ ∈
          (Push (bAllOK []) sW fC2 [("FOO", "bar")] tW).tr
        ∧ lookupKV (Push (bAllOK []) sW fC2 [("FOO", "bar")] tW).data
            ( addEnvVarPrefix kv.1) = some envTypeHidden))
    ∧ lookupKV (Push (bAllOK []) sW fC2 [("FOO", "bar")] tW).data "ENV_FOO" =
        some envTypeHidden
    ∧ RemoteOp.create ⟨"FOO", "bar", envTypeHidden⟩ ∈
        (Push (bAllOK []) sW fC2 [("FOO", "bar")] tW).tr
    ∧ lookupKV (Push (bAllOK []) sW fC2b [("X", "1")] tW).data "ENV_X" =
        some envTypeDiscover
    ∧ RemoteOp.create ⟨"X", "1", envTypeDiscover⟩ ∈
        (Push (bAllOK []) sW fC2b [("X", "1")] tW).tr) :=
  ⟨by decide, c2_push_classification (bAllOK []) sW fC2 [("FOO", "bar")] tW (by decide)⟩

/-- Claim C3: the upsert pass runs strictly before the deletion pass (every
trace is upsert operations followed by deletions); when both create and update
fail for some local key, `Push` returns that update error immediately, the
deletion pass is skipped entirely (no deletion appears in the trace), and the
keys upserted before the failure keep their upsert operations (no rollback). -/
theorem c3_upsert_precedes_deletion (b : Backend) (s : HarborStore) (file : File)
    (parsed : List (String × String)) (now : GoTime)
    (pre : List (String × String)) (kv : String × String)
    (post : List (String × String)) (e1 e2 : String)
    (hsplit : localKeysOf parsed now = pre ++ kv :: post)
    (hpre : ∀ q ∈ pre, b.createRes ⟨q.1, q.2, keyTypeFor file.Data q.1⟩ = none ∨
      b.updateRes ⟨q.1, q.2, keyTypeFor file.Data q.1⟩ = none)
    (hc : b.createRes ⟨kv.1, kv.2, keyTypeFor file.Data kv.1⟩ = some e1)
    (hu2 : b.updateRes ⟨kv.1, kv.2, keyTypeFor file.Data kv.1⟩ = some e2) :
    ((Push b s file parsed now).err = some e2
    ∧ deletesOf (Push b s file parsed now).tr = []
    ∧ (∀ q ∈ pre, RemoteOp.create ⟨q.1, q.2, keyTypeFor file.Data q.1⟩ ∈
        (Push b s file parsed now).tr)
    ∧ (∀ (b2 : Backend) (s2 : HarborStore) (f2 : File)
        (p2 : List (String × String)) (n2 : GoTime),
        ∃ t1 t2, (Push b2 s2 f2 p2 n2).tr = t1 ++ t2
          ∧ (∀ op ∈ t1, ∀ k2, op ≠ RemoteOp.delete k2)
          ∧ (∀ op ∈ t2, ∃ k2, op = RemoteOp.delete k2))) := by
  have hfail := pushUpsert_fail b file.Data kv post e1 e2 hc hu2 pre (initialData s) [] hpre
  rw [← hsplit] at hfail
  obtain ⟨herr, ext, hext, hmem⟩ := hfail
  have hpush := Push_of_upsert_err b s file parsed now e2 herr
  refine ⟨?_, ?_, ?_, fun b2 s2 f2 p2 n2 => Push_tr_split b2 s2 f2 p2 n2⟩
  · rw [hpush]
  · rw [hpush]
    simp only
    exact deletesOf_of_no_delete (pushUpsert_tr_no_delete b file.Data _ _)
  · intro q hq
    rw [hpush]
    simp only
    rw [hext]
    simp only [List.nil_append]
    exact hmem q hq

theorem c3_upsert_precedes_deletion_witness :
    (localKeysOf [("a", "1")] tW =
      [(modifiedToken, goTimeString tW)] ++ ("a", "1") :: [])
    ∧ (∀ q ∈ [(modifiedToken, goTimeString tW)],
        bFailA.createRes ⟨q.1, q.2, keyTypeFor fC2.Data q.1⟩ = none ∨
        bFailA.updateRes ⟨q.1, q.2, keyTypeFor fC2.Data q.1⟩ = none)
    ∧ (bFailA.createRes ⟨("a", "1").1, ("a", "1").2, keyTypeFor fC2.Data ("a", "1").1⟩ =
        some "create-failed")
    ∧ (bFailA.updateRes ⟨("a", "1").1, ("a", "1").2, keyTypeFor fC2.Data ("a", "1").1⟩ =
        some "update-failed")
    ∧ (((Push bFailA sW fC2 [("a", "1")] tW).err = some "update-failed"
      ∧ deletesOf (Push bFailA sW fC2 [("a", "1")] tW).tr = []
      ∧ (∀ q ∈ [(modifiedToken, goTimeString tW)],
          RemoteOp.create ⟨q.1, q.2, keyTypeFor fC2.Data q.1⟩ ∈
            (Push bFailA sW fC2 [("a", "1")] tW).tr)
      ∧ (∀ (b2 : Backend) (s2 : HarborStore) (f2 : File)
          (p2 : List (String × String)) (n2 : GoTime),
          ∃ t1 t2, (Push b2 s2 f2 p2 n2).tr = t1 ++ t2
            ∧ (∀ op ∈ t1, ∀ k2, op ≠ RemoteOp.delete k2)
            ∧ (∀ op ∈ t2, ∃ k2, op = RemoteOp.delete k2)))) :=
  ⟨by decide, by decide, by decide, by decide,
   c3_upsert_precedes_deletion bFailA sW fC2 [("a", "1")] tW
     [(modifiedToken, goTimeString tW)] ("a", "1") [] "create-failed" "update-failed"
     (by decide) (by decide) (by decide) (by decide)⟩

end CStore
